import Mathlib

/-!
Verification development for the 32-bit LFSR L1 memory self-check
(`lfsr32.c`).  The program fills a word-addressable memory region with a
pseudorandom pattern produced by a table-accelerated 32-bit linear feedback
shift register, one strided slice per core, and then re-derives the pattern
with reversed core roles and counts mismatching bits.

Modelling conventions:
* 32-bit machine words are naturals reduced modulo `U32 = 2^32` at the
  points where C performs a 32-bit conversion (initial seeds, address
  increments, the mismatch counter).  The LFSR step itself maps values
  below `2^32` to values below `2^32`, so no further reduction appears.
* memory is a total map from byte addresses to stored words; the program
  only ever accesses 4-byte aligned addresses inside the region.
* the per-core loops of `run_test` are modelled as fuel-indexed recursive
  functions (`fuel = last` always suffices, since each step advances the
  address by `4*NB_CORES >= 4`).
* concurrency: the eight phase-1 write loops touch pairwise disjoint
  addresses (proved below), so the concurrent execution is modelled as a
  left fold of the per-core write loops; the barrier between the phases
  orders every write before every read; the critical section makes the
  final aggregation the sum of the per-core counters.
-/

namespace Lfsr32

/-- `2^32`, the modulus of C `uint32_t` arithmetic. -/
def U32 : Nat := 4294967296

/-- The 256-entry precomputed feedback table `lfsr_byte_feedback[256]`
from `lfsr32.c` (lines 162-227), transcribed literally. -/
def lfsr_byte_feedback : List Nat := [
  0x00000000, 0x1300000b, 0x26000016, 0x3500001d, 
  0x4c00002c, 0x5f000027, 0x6a00003a, 0x79000031, 
  0x98000058, 0x8b000053, 0xbe00004e, 0xad000045, 
  0xd4000074, 0xc700007f, 0xf2000062, 0xe1000069, 
  0x3000001f, 0x23000014, 0x16000009, 0x05000002, 
  0x7c000033, 0x6f000038, 0x5a000025, 0x4900002e, 
  0xa8000047, 0xbb00004c, 0x8e000051, 0x9d00005a, 
  0xe400006b, 0xf7000060, 0xc200007d, 0xd1000076, 
  0x6000003e, 0x73000035, 0x46000028, 0x55000023, 
  0x2c000012, 0x3f000019, 0x0a000004, 0x1900000f, 
  0xf8000066, 0xeb00006d, 0xde000070, 0xcd00007b, 
  0xb400004a, 0xa7000041, 0x9200005c, 0x81000057, 
  0x50000021, 0x4300002a, 0x76000037, 0x6500003c, 
  0x1c00000d, 0x0f000006, 0x3a00001b, 0x29000010, 
  0xc8000079, 0xdb000072, 0xee00006f, 0xfd000064, 
  0x84000055, 0x9700005e, 0xa2000043, 0xb1000048, 
  0xc000007c, 0xd3000077, 0xe600006a, 0xf5000061, 
  0x8c000050, 0x9f00005b, 0xaa000046, 0xb900004d, 
  0x58000024, 0x4b00002f, 0x7e000032, 0x6d000039, 
  0x14000008, 0x07000003, 0x3200001e, 0x21000015, 
  0xf0000063, 0xe3000068, 0xd6000075, 0xc500007e, 
  0xbc00004f, 0xaf000044, 0x9a000059, 0x89000052, 
  0x6800003b, 0x7b000030, 0x4e00002d, 0x5d000026, 
  0x24000017, 0x3700001c, 0x02000001, 0x1100000a, 
  0xa0000042, 0xb3000049, 0x86000054, 0x9500005f, 
  0xec00006e, 0xff000065, 0xca000078, 0xd9000073, 
  0x3800001a, 0x2b000011, 0x1e00000c, 0x0d000007, 
  0x74000036, 0x6700003d, 0x52000020, 0x4100002b, 
  0x9000005d, 0x83000056, 0xb600004b, 0xa5000040, 
  0xdc000071, 0xcf00007a, 0xfa000067, 0xe900006c, 
  0x08000005, 0x1b00000e, 0x2e000013, 0x3d000018, 
  0x44000029, 0x57000022, 0x6200003f, 0x71000034, 
  0x80000057, 0x9300005c, 0xa6000041, 0xb500004a, 
  0xcc00007b, 0xdf000070, 0xea00006d, 0xf9000066, 
  0x1800000f, 0x0b000004, 0x3e000019, 0x2d000012, 
  0x54000023, 0x47000028, 0x72000035, 0x6100003e, 
  0xb0000048, 0xa3000043, 0x9600005e, 0x85000055, 
  0xfc000064, 0xef00006f, 0xda000072, 0xc9000079, 
  0x28000010, 0x3b00001b, 0x0e000006, 0x1d00000d, 
  0x6400003c, 0x77000037, 0x4200002a, 0x51000021, 
  0xe0000069, 0xf3000062, 0xc600007f, 0xd5000074, 
  0xac000045, 0xbf00004e, 0x8a000053, 0x99000058, 
  0x78000031, 0x6b00003a, 0x5e000027, 0x4d00002c, 
  0x3400001d, 0x27000016, 0x1200000b, 0x01000000, 
  0xd0000076, 0xc300007d, 0xf6000060, 0xe500006b, 
  0x9c00005a, 0x8f000051, 0xba00004c, 0xa9000047, 
  0x4800002e, 0x5b000025, 0x6e000038, 0x7d000033, 
  0x04000002, 0x17000009, 0x22000014, 0x3100001f, 
  0x4000002b, 0x53000020, 0x6600003d, 0x75000036, 
  0x0c000007, 0x1f00000c, 0x2a000011, 0x3900001a, 
  0xd8000073, 0xcb000078, 0xfe000065, 0xed00006e, 
  0x9400005f, 0x87000054, 0xb2000049, 0xa1000042, 
  0x70000034, 0x6300003f, 0x56000022, 0x45000029, 
  0x3c000018, 0x2f000013, 0x1a00000e, 0x09000005, 
  0xe800006c, 0xfb000067, 0xce00007a, 0xdd000071, 
  0xa4000040, 0xb700004b, 0x82000056, 0x9100005d, 
  0x20000015, 0x3300001e, 0x06000003, 0x15000008, 
  0x6c000039, 0x7f000032, 0x4a00002f, 0x59000024, 
  0xb800004d, 0xab000046, 0x9e00005b, 0x8d000050, 
  0xf4000061, 0xe700006a, 0xd2000077, 0xc100007c, 
  0x1000000a, 0x03000001, 0x3600001c, 0x25000017, 
  0x5c000026, 0x4f00002d, 0x7a000030, 0x6900003b, 
  0x88000052, 0x9b000059, 0xae000044, 0xbd00004f, 
  0xc400007e, 0xd7000075, 0xe2000068, 0xf1000063
]

/-- `lfsr_iter_byte` from `lfsr32.c` (USE_BYTE_FEEDBACK branch, line 60):
`return (lfsr >> 8) ^ lfsr_byte_feedback[lfsr & 0xff];`. -/
def lfsr_iter_byte (lfsr : Nat) (tbl : List Nat) : Nat :=
  (lfsr >>> 8) ^^^ tbl.getD (lfsr &&& 0xff) 0

/-- `lfsr_iter_word` from `lfsr32.c` (lines 68-73): `lfsr_iter_byte`
applied four times. -/
def lfsr_iter_word (lfsr : Nat) (tbl : List Nat) : Nat :=
  lfsr_iter_byte (lfsr_iter_byte (lfsr_iter_byte (lfsr_iter_byte lfsr tbl) tbl) tbl) tbl

/-- Modelled from the spec: the `FEEDBACK` macro used by the table-free
single-bit recurrence `lfsr_iter_bit` (line 52) is not defined anywhere
under `src/` (it lives in the out-of-repo build configuration /
`lfsr32_precomp.c`).  The spec fixes it as "the fixed generator polynomial
the table was precomputed from"; that polynomial is `0x80000057`
(= `lfsr_byte_feedback[0x80]`, the feedback term selected by the
highest-order bit of the low byte alone). -/
def FEEDBACK : Nat := 0x80000057

/-- `lfsr_iter_bit` from `lfsr32.c` (lines 51-53):
`return (lfsr & 1) ? ((lfsr >> 1) ^ FEEDBACK) : (lfsr >> 1);`. -/
def lfsr_iter_bit (lfsr : Nat) : Nat :=
  if lfsr &&& 1 = 1 then (lfsr >>> 1) ^^^ FEEDBACK else lfsr >>> 1

/-- `__builtin_pulp_cnt` (line 95): population count of a word. -/
def popcount : Nat → Nat
  | 0 => 0
  | n+1 => (n+1) % 2 + popcount ((n+1) / 2)

-- compile-time constants of lfsr32.c (lines 29-39)
/-- `DEFAULT_SEED` (line 29). -/
def DEFAULT_SEED : Nat := 0xdeadbeef
/-- `NB_CORES` (line 35). -/
def NB_CORES : Nat := 8
/-- `ADDR_FIRST` (line 37). -/
def ADDR_FIRST : Nat := 0x10008000
/-- `ADDR_LAST` (line 39). -/
def ADDR_LAST : Nat := 0x10020000

/-- Memory: a total map from byte addresses to stored 32-bit words. -/
abbrev Mem := Nat → Nat

/-- One word-advance of the generator with the global table, as called by
`run_test`: `lfsr_iter_word(lfsr, lfsr_byte_feedback)`. -/
def iterWord (s : Nat) : Nat := lfsr_iter_word s lfsr_byte_feedback

/-- The phase-1 write loop body of `run_test` (lines 85-88), fuel-indexed:
`for(addr = ...; addr < last; addr += 4*N) { lfsr = lfsr_iter_word(lfsr); *addr = lfsr; }`. -/
def phase1_go (N last : Nat) : Nat → Nat → Nat → Mem → Mem
  | 0, _, _, mem => mem
  | fuel+1, addr, lfsr, mem =>
    if addr < last then
      phase1_go N last fuel ((addr + 4*N) % U32) (iterWord lfsr)
        (Function.update mem addr (iterWord lfsr))
    else mem

/-- Phase 1 for the unit with identity `id`: seed `base_seed + id`, start
address `first + id*4` (lines 83-88). -/
def phase1 (N id seed first last : Nat) (mem : Mem) : Mem :=
  phase1_go N last last ((first + id*4) % U32) ((seed + id) % U32) mem

/-- The phase-2 verify loop body of `run_test` (lines 93-96), fuel-indexed:
`for(addr = ...; addr < last; addr += 4*N) { lfsr = lfsr_iter_word(lfsr);
cnt += popcount(lfsr ^ *addr); }` with a 32-bit counter. -/
def phase2_go (N last : Nat) (mem : Mem) : Nat → Nat → Nat → Nat → Nat
  | 0, _, _, cnt => cnt
  | fuel+1, addr, lfsr, cnt =>
    if addr < last then
      phase2_go N last mem fuel ((addr + 4*N) % U32) (iterWord lfsr)
        ((cnt + popcount ((iterWord lfsr) ^^^ mem addr)) % U32)
    else cnt

/-- Phase 2 for the unit with identity `id`: it computes the reversed
identity `rid = N - id - 1` (line 91), reseeds with `base_seed + rid`
(line 92) and runs the verify loop from `first + rid*4` with counter 0. -/
def phase2 (N id seed first last : Nat) (mem : Mem) : Nat :=
  phase2_go N last mem last ((first + (N - id - 1)*4) % U32)
    ((seed + (N - id - 1)) % U32) 0

/-- The memory state after all `N` units have completed phase 1.  The
units run concurrently but write pairwise disjoint addresses (proved
below), so any interleaving yields this fold. -/
def run_phase1 (N seed first last : Nat) (mem : Mem) : Mem :=
  (List.range N).foldl (fun m id => phase1 N id seed first last m) mem

/-- The final value of `glob_errors`: each unit adds its local phase-2
counter inside the critical section (lines 103-105), so after all units
finish it is the sum of the per-unit counters. -/
def glob_errors (N seed first last : Nat) (mem1 : Mem) : Nat :=
  (Finset.range N).sum (fun id => phase2 N id seed first last mem1)

/-- A whole self-test run: phase 1 by all units, an arbitrary tampering
of the memory between the phases (`tamper = id` for an uncorrupted run),
then phase 2 by all units and the aggregation. -/
def run_self_test (N seed first last : Nat) (tamper : Mem → Mem) (mem0 : Mem) : Nat :=
  glob_errors N seed first last (tamper (run_phase1 N seed first last mem0))

/-- The list of addresses visited by the per-unit loop head
`for(addr = first + id*4; addr < last; addr += 4*N)`, fuel-indexed. -/
def addr_seq_go (N last : Nat) : Nat → Nat → List Nat
  | 0, _ => []
  | fuel+1, addr =>
    if addr < last then addr :: addr_seq_go N last fuel ((addr + 4*N) % U32) else []

/-- The address sequence traversed by unit `id` in either phase. -/
def addr_seq (N id first last : Nat) : List Nat :=
  addr_seq_go N last last ((first + id*4) % U32)

/-- Number of loop iterations performed from start address `addr0`:
`ceil((last - addr0) / (4*N))`. -/
def strideCount (N last addr0 : Nat) : Nat := (last - addr0 + (4*N - 1)) / (4*N)

/-! ### Generic xor facts used throughout -/

theorem xor_cancel_pair (a b c : Nat) : (a ^^^ c) ^^^ (b ^^^ c) = a ^^^ b := by
  apply Nat.eq_of_testBit_eq; intro i
  simp only [Nat.testBit_xor]
  cases a.testBit i <;> cases b.testBit i <;> cases c.testBit i <;> rfl

theorem xor_rotate (a b c : Nat) : (a ^^^ b) ^^^ c = (a ^^^ c) ^^^ b := by
  apply Nat.eq_of_testBit_eq; intro i
  simp only [Nat.testBit_xor]
  cases a.testBit i <;> cases b.testBit i <;> cases c.testBit i <;> rfl

theorem xor_cancel_left (a b : Nat) : a ^^^ (a ^^^ b) = b := by
  rw [← Nat.xor_assoc, Nat.xor_self, Nat.zero_xor]

theorem shiftRight_one_xor (a b : Nat) : (a ^^^ b) >>> 1 = (a >>> 1) ^^^ (b >>> 1) := by
  apply Nat.eq_of_testBit_eq; intro i
  simp [Nat.testBit_shiftRight, Nat.testBit_xor]

/-! ### popcount facts -/

theorem popcount_zero : popcount 0 = 0 := by simp [popcount]

theorem popcount_succ (m : Nat) : popcount (m+1) = (m+1) % 2 + popcount ((m+1) / 2) := by
  simp [popcount]

theorem popcount_le_self (n : Nat) : popcount n ≤ n := by
  induction n using Nat.strong_induction_on with
  | _ n ih =>
    match n with
    | 0 => rw [popcount_zero]
    | m+1 =>
      have h2 : (m+1) / 2 < m+1 := Nat.div_lt_self (Nat.succ_pos m) (by decide)
      have := ih ((m+1) / 2) h2
      rw [popcount_succ]
      omega

theorem popcount_xor_self (x : Nat) : popcount (x ^^^ x) = 0 := by
  rw [Nat.xor_self, popcount_zero]

/-! ### The single-bit recurrence and its relation to the byte table -/

theorem lfsr_iter_bit_two_mul (x : Nat) : lfsr_iter_bit (2 * x) = x := by
  have h1 : (2 * x) &&& 1 = 0 := by
    rw [Nat.and_one_is_mod]; exact Nat.mul_mod_right 2 x
  rw [lfsr_iter_bit, h1]
  simp [Nat.shiftRight_eq_div_pow]

theorem lfsr_iter_bit_even (x : Nat) (h : x % 2 = 0) : lfsr_iter_bit x = x >>> 1 := by
  unfold lfsr_iter_bit
  rw [Nat.and_one_is_mod, h, if_neg Nat.zero_ne_one]

theorem lfsr_iter_bit_odd (x : Nat) (h : x % 2 = 1) :
    lfsr_iter_bit x = (x >>> 1) ^^^ FEEDBACK := by
  unfold lfsr_iter_bit
  rw [Nat.and_one_is_mod, h, if_pos rfl]

theorem lfsr_iter_bit_xor (x y : Nat) :
    lfsr_iter_bit (x ^^^ y) = lfsr_iter_bit x ^^^ lfsr_iter_bit y := by
  have hxy : (x ^^^ y) % 2 = (x % 2) ^^^ (y % 2) := by
    simpa [Nat.and_one_is_mod] using
      (Nat.and_xor_distrib_right (a := x) (b := y) (c := 1))
  rcases Nat.mod_two_eq_zero_or_one x with hx | hx <;>
    rcases Nat.mod_two_eq_zero_or_one y with hy | hy
  · have h : (x ^^^ y) % 2 = 0 := by rw [hxy, hx, hy]; decide
    rw [lfsr_iter_bit_even _ h, lfsr_iter_bit_even _ hx, lfsr_iter_bit_even _ hy,
      shiftRight_one_xor]
  · have h : (x ^^^ y) % 2 = 1 := by rw [hxy, hx, hy]; decide
    rw [lfsr_iter_bit_odd _ h, lfsr_iter_bit_even _ hx, lfsr_iter_bit_odd _ hy,
      shiftRight_one_xor]
    exact Nat.xor_assoc _ _ _
  · have h : (x ^^^ y) % 2 = 1 := by rw [hxy, hx, hy]; decide
    rw [lfsr_iter_bit_odd _ h, lfsr_iter_bit_odd _ hx, lfsr_iter_bit_even _ hy,
      shiftRight_one_xor]
    exact xor_rotate _ _ _
  · have h : (x ^^^ y) % 2 = 0 := by rw [hxy, hx, hy]; decide
    rw [lfsr_iter_bit_even _ h, lfsr_iter_bit_odd _ hx, lfsr_iter_bit_odd _ hy,
      shiftRight_one_xor]
    exact (xor_cancel_pair _ _ _).symm

theorem iterate_bit_xor (j x y : Nat) :
    lfsr_iter_bit^[j] (x ^^^ y) = lfsr_iter_bit^[j] x ^^^ lfsr_iter_bit^[j] y := by
  induction j generalizing x y with
  | zero => rfl
  | succ n ih =>
    rw [Function.iterate_succ_apply, Function.iterate_succ_apply,
      Function.iterate_succ_apply, lfsr_iter_bit_xor, ih]

theorem iterate_bit_mul_pow (j x : Nat) : lfsr_iter_bit^[j] (2^j * x) = x := by
  induction j generalizing x with
  | zero => simp
  | succ n ih =>
    have h : 2^(n+1) * x = 2 * (2^n * x) := by ring
    rw [h, Function.iterate_succ_apply, lfsr_iter_bit_two_mul, ih]

theorem mul_pow_xor_eq_add (q r : Nat) (h : r < 2^8) :
    (2^8 * q) ^^^ r = 2^8 * q + r := by
  apply Nat.eq_of_testBit_eq; intro j
  rw [Nat.testBit_xor, Nat.testBit_mul_pow_two, Nat.testBit_mul_pow_two_add q h j]
  by_cases hj : j < 8
  · simp [hj, Nat.not_le_of_lt hj]
  · have hr : r.testBit j = false :=
      Nat.testBit_lt_two_pow
        (Nat.lt_of_lt_of_le h (Nat.pow_le_pow_right (by decide) (Nat.le_of_not_lt hj)))
    simp [hj, Nat.le_of_not_lt hj, hr]

theorem byte_decomp (s : Nat) : 2^8 * (s >>> 8) + s % 2^8 = s := by
  rw [Nat.shiftRight_eq_div_pow]
  exact Nat.div_add_mod s (2^8)

set_option maxRecDepth 200000 in
theorem bit8_table : ∀ r < 256, lfsr_iter_bit^[8] r = lfsr_byte_feedback.getD r 0 := by
  decide

theorem iter_byte_eq_bit8 (s : Nat) :
    lfsr_iter_byte s lfsr_byte_feedback = lfsr_iter_bit^[8] s := by
  have hidx : s &&& 0xff = s % 2^8 := by
    have h255 : (0xff : Nat) = 2^8 - 1 := by decide
    rw [h255, Nat.and_pow_two_sub_one_eq_mod]
  have hd : (2^8 * (s >>> 8)) ^^^ (s % 2^8) = s := by
    rw [mul_pow_xor_eq_add _ _ (Nat.mod_lt _ (by decide))]
    exact byte_decomp s
  calc lfsr_iter_byte s lfsr_byte_feedback
      = (s >>> 8) ^^^ lfsr_byte_feedback.getD (s % 2^8) 0 := by
        show (s >>> 8) ^^^ lfsr_byte_feedback.getD (s &&& 0xff) 0 = _
        rw [hidx]
    _ = lfsr_iter_bit^[8] (2^8 * (s >>> 8)) ^^^ lfsr_iter_bit^[8] (s % 2^8) := by
        rw [iterate_bit_mul_pow, bit8_table (s % 2^8) (Nat.mod_lt _ (by decide))]
    _ = lfsr_iter_bit^[8] ((2^8 * (s >>> 8)) ^^^ (s % 2^8)) := (iterate_bit_xor 8 _ _).symm
    _ = lfsr_iter_bit^[8] s := by rw [hd]

/-! ### Range facts about the table and the iteration functions -/

set_option maxRecDepth 200000 in
theorem table_getD_lt_aux : ∀ r < 256, lfsr_byte_feedback.getD r 0 < U32 := by
  decide

set_option maxRecDepth 200000 in
theorem table_length : lfsr_byte_feedback.length = 256 := by rfl

theorem table_getD_lt (r : Nat) : lfsr_byte_feedback.getD r 0 < U32 := by
  by_cases h : r < 256
  · exact table_getD_lt_aux r h
  · rw [List.getD_eq_default]
    · show 0 < U32; decide
    · rw [table_length]; omega

theorem U32_eq_two_pow : U32 = 2^32 := by decide

theorem iter_byte_lt (s : Nat) (h : s < U32) :
    lfsr_iter_byte s lfsr_byte_feedback < U32 := by
  rw [U32_eq_two_pow] at *
  apply Nat.xor_lt_two_pow
  · exact Nat.lt_of_le_of_lt (by rw [Nat.shiftRight_eq_div_pow]; exact Nat.div_le_self _ _) h
  · rw [← U32_eq_two_pow]; exact table_getD_lt _

theorem iter_word_lt (s : Nat) (h : s < U32) :
    lfsr_iter_word s lfsr_byte_feedback < U32 :=
  iter_byte_lt _ (iter_byte_lt _ (iter_byte_lt _ (iter_byte_lt _ h)))

/-! ### Characterization of the per-core loops -/

theorem addr_seq_go_mem (N last : Nat) (hN : 1 ≤ N) (hov : last + 4*N ≤ U32) :
    ∀ fuel addr a, last - addr ≤ fuel →
      (a ∈ addr_seq_go N last fuel addr ↔ ∃ k, a = addr + 4*N*k ∧ a < last) := by
  intro fuel
  induction fuel with
  | zero =>
    intro addr a hf
    simp only [addr_seq_go, List.not_mem_nil, false_iff]
    rintro ⟨k, rfl, hlt⟩
    have hle : addr ≤ addr + 4*N*k := Nat.le_add_right _ _
    omega
  | succ fuel ih =>
    intro addr a hf
    by_cases hlt : addr < last
    · have hmod : (addr + 4*N) % U32 = addr + 4*N := Nat.mod_eq_of_lt (by omega)
      simp only [addr_seq_go, if_pos hlt, hmod, List.mem_cons]
      rw [ih (addr + 4*N) a (by omega)]
      constructor
      · rintro (rfl | ⟨k, rfl, h2⟩)
        · exact ⟨0, by simp, hlt⟩
        · exact ⟨k+1, by ring_nf, h2⟩
      · rintro ⟨k, rfl, h2⟩
        cases k with
        | zero => left; simp
        | succ k =>
          right
          exact ⟨k, by ring_nf, h2⟩
    · simp only [addr_seq_go, if_neg hlt, List.not_mem_nil, false_iff]
      rintro ⟨k, rfl, h2⟩
      have hle : addr ≤ addr + 4*N*k := Nat.le_add_right _ _
      omega

/-- Membership in the visited-address sequence of unit `id`, in closed form. -/
theorem addr_seq_mem (N id first last : Nat) (hN : 1 ≤ N) (hid : id < N)
    (hov : last + 4*N ≤ U32) (hfi : first + 4*N ≤ U32) (a : Nat) :
    a ∈ addr_seq N id first last ↔ ∃ k, a = (first + id*4) + 4*N*k ∧ a < last := by
  unfold addr_seq
  have hmod : (first + id*4) % U32 = first + id*4 := Nat.mod_eq_of_lt (by omega)
  rw [hmod]
  exact addr_seq_go_mem N last hN hov last (first + id*4) a (Nat.sub_le _ _)

theorem phase1_go_miss (N last : Nat) (hN : 1 ≤ N) (hov : last + 4*N ≤ U32) :
    ∀ fuel addr lfsr mem a, last - addr ≤ fuel →
      (∀ k : Nat, a ≠ addr + 4*N*k) →
      phase1_go N last fuel addr lfsr mem a = mem a := by
  intro fuel
  induction fuel with
  | zero => intro addr lfsr mem a hf hne; rfl
  | succ fuel ih =>
    intro addr lfsr mem a hf hne
    by_cases hlt : addr < last
    · have hmod : (addr + 4*N) % U32 = addr + 4*N := Nat.mod_eq_of_lt (by omega)
      simp only [phase1_go, if_pos hlt, hmod]
      rw [ih (addr + 4*N) (iterWord lfsr) _ a (by omega)
        (fun k => by have := hne (k+1); intro hc; apply this; rw [hc]; ring)]
      have ha : a ≠ addr := by have := hne 0; simpa using this
      exact Function.update_noteq ha _ mem
    · simp only [phase1_go, if_neg hlt]

theorem phase1_go_hit (N last : Nat) (hN : 1 ≤ N) (hov : last + 4*N ≤ U32) :
    ∀ fuel addr lfsr mem k, last - addr ≤ fuel → addr + 4*N*k < last →
      phase1_go N last fuel addr lfsr mem (addr + 4*N*k) = iterWord^[k+1] lfsr := by
  intro fuel
  induction fuel with
  | zero =>
    intro addr lfsr mem k hf hk
    have hle : addr ≤ addr + 4*N*k := Nat.le_add_right _ _
    omega
  | succ fuel ih =>
    intro addr lfsr mem k hf hk
    have hlt : addr < last := by
      have hle : addr ≤ addr + 4*N*k := Nat.le_add_right _ _
      omega
    have hmod : (addr + 4*N) % U32 = addr + 4*N := Nat.mod_eq_of_lt (by omega)
    simp only [phase1_go, if_pos hlt, hmod]
    cases k with
    | zero =>
      simp only [Nat.mul_zero, Nat.add_zero] at hk ⊢
      rw [phase1_go_miss N last hN hov fuel (addr + 4*N) (iterWord lfsr) _ addr (by omega)
        (fun k => by
          intro hc
          have hle : addr + 4*N ≤ addr + 4*N + 4*N*k := Nat.le_add_right _ _
          omega)]
      rw [Function.update_same]
      rfl
    | succ k =>
      have hsh : addr + 4*N*(k+1) = (addr + 4*N) + 4*N*k := by ring
      rw [hsh] at hk ⊢
      rw [ih (addr + 4*N) (iterWord lfsr) _ k (by omega) hk]
      rw [← Function.iterate_succ_apply]

theorem strideCount_zero (N last addr : Nat) (hN : 1 ≤ N) (h : ¬ addr < last) :
    strideCount N last addr = 0 := by
  unfold strideCount
  have h0 : last - addr = 0 := by omega
  rw [h0, Nat.zero_add]
  exact Nat.div_eq_of_lt (by omega)

theorem strideCount_succ (N last addr : Nat) (hN : 1 ≤ N) (h : addr < last) :
    strideCount N last addr = strideCount N last (addr + 4*N) + 1 := by
  unfold strideCount
  by_cases hd : last ≤ addr + 4*N
  · have h1 : last - (addr + 4*N) = 0 := by omega
    rw [h1, Nat.zero_add, Nat.div_eq_of_lt (by omega : 4*N - 1 < 4*N)]
    exact Nat.div_eq_of_lt_le (by omega) (by omega)
  · have h1 : last - addr + (4*N - 1) = (last - (addr + 4*N) + (4*N - 1)) + 4*N := by omega
    rw [h1, Nat.add_div_right _ (by omega : 0 < 4*N)]

theorem lt_strideCount_iff (N last addr k : Nat) (hN : 1 ≤ N) :
    k < strideCount N last addr ↔ addr + 4*N*k < last := by
  unfold strideCount
  have h4 : 0 < 4*N := by omega
  rw [Nat.lt_iff_add_one_le, Nat.le_div_iff_mul_le h4]
  have he : (k+1) * (4*N) = 4*N*k + 4*N := by ring
  rw [he]
  generalize 4*N*k = m
  omega

theorem phase2_go_sum (N last : Nat) (mem : Mem) (hN : 1 ≤ N) (hov : last + 4*N ≤ U32) :
    ∀ fuel addr lfsr cnt, last - addr ≤ fuel → cnt < U32 →
      phase2_go N last mem fuel addr lfsr cnt =
        (cnt + (Finset.range (strideCount N last addr)).sum
          (fun k => popcount ((iterWord^[k+1] lfsr) ^^^ mem (addr + 4*N*k)))) % U32 := by
  intro fuel
  induction fuel with
  | zero =>
    intro addr lfsr cnt hf hcnt
    have h0 : strideCount N last addr = 0 := strideCount_zero N last addr hN (by omega)
    rw [h0]
    simp only [Finset.range_zero, Finset.sum_empty, Nat.add_zero]
    exact (Nat.mod_eq_of_lt hcnt).symm
  | succ fuel ih =>
    intro addr lfsr cnt hf hcnt
    by_cases hlt : addr < last
    · have hmod : (addr + 4*N) % U32 = addr + 4*N := Nat.mod_eq_of_lt (by omega)
      simp only [phase2_go, if_pos hlt, hmod]
      rw [ih (addr + 4*N) (iterWord lfsr) _ (by omega) (Nat.mod_lt _ (by decide))]
      rw [Nat.mod_add_mod]
      rw [strideCount_succ N last addr hN hlt]
      rw [Finset.sum_range_succ']
      have hterm0 : popcount ((iterWord^[0+1] lfsr) ^^^ mem (addr + 4*N*0))
          = popcount ((iterWord lfsr) ^^^ mem addr) := by
        simp [Function.iterate_one]
      have hterms : ∀ k : Nat,
          popcount ((iterWord^[k+1+1] lfsr) ^^^ mem (addr + 4*N*(k+1)))
            = popcount ((iterWord^[k+1] (iterWord lfsr)) ^^^ mem ((addr + 4*N) + 4*N*k)) := by
        intro k
        rw [Function.iterate_succ_apply]
        congr 2
        ring
      rw [Finset.sum_congr rfl (fun k _ => hterms k), hterm0]
      congr 1
      omega
    · have h0 : strideCount N last addr = 0 := strideCount_zero N last addr hN hlt
      simp only [phase2_go, if_neg hlt, h0, Finset.range_zero, Finset.sum_empty,
        Nat.add_zero]
      exact (Nat.mod_eq_of_lt hcnt).symm

/-- Two strided addresses coincide only for the same unit and the same
step index. -/
theorem stride_disjoint (N : Nat) (hN : 1 ≤ N) (first id1 id2 k1 k2 : Nat)
    (h1 : id1 < N) (h2 : id2 < N)
    (heq : (first + id1*4) + 4*N*k1 = (first + id2*4) + 4*N*k2) :
    id1 = id2 ∧ k1 = k2 := by
  have hA : 4*N*k1 = 4*(N*k1) := by ring
  have hB : 4*N*k2 = 4*(N*k2) := by ring
  rw [hA, hB] at heq
  have h4 : id1 + N*k1 = id2 + N*k2 := by
    generalize N*k1 = A at heq ⊢
    generalize N*k2 = B at heq ⊢
    omega
  have hid : id1 = id2 := by
    have m1 : (id1 + N*k1) % N = id1 := by
      rw [Nat.add_mul_mod_self_left]; exact Nat.mod_eq_of_lt h1
    have m2 : (id2 + N*k2) % N = id2 := by
      rw [Nat.add_mul_mod_self_left]; exact Nat.mod_eq_of_lt h2
    rw [← m1, ← m2, h4]
  refine ⟨hid, ?_⟩
  subst hid
  have hkk : N*k1 = N*k2 := by
    generalize N*k1 = A at h4 ⊢
    generalize N*k2 = B at h4 ⊢
    omega
  exact Nat.eq_of_mul_eq_mul_left (by omega) hkk

/-! ### Claims C2, C3, C9, C10 -/

/-- Claim C2: for every 32-bit state `s` and the fixed 256-entry feedback
table, the byte advance returns exactly `(s >> 8) XOR table[s & 0xff]`,
and the word advance equals the byte advance applied four times. -/
theorem c2_advance_byte_word_def (s : Nat) :
    lfsr_iter_byte s lfsr_byte_feedback
        = (s >>> 8) ^^^ lfsr_byte_feedback.getD (s &&& 0xff) 0 ∧
    lfsr_iter_word s lfsr_byte_feedback
        = lfsr_iter_byte (lfsr_iter_byte (lfsr_iter_byte
            (lfsr_iter_byte s lfsr_byte_feedback) lfsr_byte_feedback)
            lfsr_byte_feedback) lfsr_byte_feedback :=
  ⟨rfl, rfl⟩

/-- Claim C3: for every state `s`, the table-based byte advance
`(s >> 8) XOR lfsr_byte_feedback[s & 0xff]` equals eight iterations of the
table-free single-bit recurrence (with the feedback polynomial the table
was precomputed from), and hence the word advance equals 32 single-bit
iterations: the two are behaviourally interchangeable for every seed. -/
theorem c3_table_equals_bit_recurrence (s : Nat) :
    lfsr_iter_byte s lfsr_byte_feedback = lfsr_iter_bit^[8] s ∧
    lfsr_iter_word s lfsr_byte_feedback = lfsr_iter_bit^[32] s := by
  refine ⟨iter_byte_eq_bit8 s, ?_⟩
  show lfsr_iter_byte (lfsr_iter_byte (lfsr_iter_byte
    (lfsr_iter_byte s lfsr_byte_feedback) lfsr_byte_feedback)
    lfsr_byte_feedback) lfsr_byte_feedback = _
  rw [iter_byte_eq_bit8, iter_byte_eq_bit8, iter_byte_eq_bit8, iter_byte_eq_bit8,
    show (32 : Nat) = 8 + (8 + (8 + 8)) from rfl,
    Function.iterate_add_apply, Function.iterate_add_apply, Function.iterate_add_apply]

/-- Claim C9: the state 0 is a fixed point of the generator:
`lfsr_byte_feedback[0] = 0`, so the byte advance and the word advance both
map 0 to 0, and a generator seeded with 0 produces the all-zero sequence
forever. -/
theorem c9_zero_fixed_point :
    lfsr_byte_feedback.getD 0 0 = 0 ∧
    lfsr_iter_byte 0 lfsr_byte_feedback = 0 ∧
    lfsr_iter_word 0 lfsr_byte_feedback = 0 ∧
    ∀ k, iterWord^[k] 0 = 0 := by
  refine ⟨rfl, rfl, rfl, ?_⟩
  intro k
  induction k with
  | zero => rfl
  | succ n ih => rw [Function.iterate_succ_apply, show iterWord 0 = 0 from rfl, ih]

/-- Claim C10: for every state `s` the table index `s & 0xff` lies below
256, hence within the bounds of the 256-entry feedback table, and the byte
and word advances are total on 32-bit states (they map values below `2^32`
to values below `2^32`). -/
theorem c10_table_index_in_bounds (s : Nat) :
    (s &&& 0xff) < 256 ∧
    (s &&& 0xff) < lfsr_byte_feedback.length ∧
    lfsr_iter_byte (s % U32) lfsr_byte_feedback < U32 ∧
    lfsr_iter_word (s % U32) lfsr_byte_feedback < U32 := by
  have hidx : s &&& 0xff = s % 2^8 := by
    have h255 : (0xff : Nat) = 2^8 - 1 := by decide
    rw [h255, Nat.and_pow_two_sub_one_eq_mod]
  have h1 : (s &&& 0xff) < 256 := by rw [hidx]; exact Nat.mod_lt _ (by decide)
  have hm : s % U32 < U32 := Nat.mod_lt _ (by decide)
  exact ⟨h1, by rw [table_length]; exact h1, iter_byte_lt _ hm, iter_word_lt _ hm⟩

/-! ### The fold of all units' phase-1 writes -/

theorem run_units_miss (N seed first last : Nat) (hN : 1 ≤ N) (hov : last + 4*N ≤ U32)
    (hfi : first + 4*N ≤ U32) (a : Nat) :
    ∀ (l : List Nat) (mem : Mem), (∀ id ∈ l, id < N) →
      (∀ id ∈ l, ∀ k : Nat, a ≠ (first + id*4) + 4*N*k) →
      (l.foldl (fun m id => phase1 N id seed first last m) mem) a = mem a := by
  intro l
  induction l with
  | nil => intro mem _ _; rfl
  | cons id t ih =>
    intro mem hlt hmiss
    rw [List.foldl_cons]
    rw [ih _ (fun x hx => hlt x (List.mem_cons_of_mem _ hx))
      (fun x hx => hmiss x (List.mem_cons_of_mem _ hx))]
    have hid : id < N := hlt id (List.mem_cons_self _ _)
    unfold phase1
    have hmod : (first + id*4) % U32 = first + id*4 := Nat.mod_eq_of_lt (by omega)
    rw [hmod]
    exact phase1_go_miss N last hN hov last _ _ mem a (Nat.sub_le _ _)
      (hmiss id (List.mem_cons_self _ _))

theorem run_units_hit (N seed first last : Nat) (hN : 1 ≤ N) (hov : last + 4*N ≤ U32)
    (hfi : first + 4*N ≤ U32) (id k : Nat) (hid : id < N)
    (hk : (first + id*4) + 4*N*k < last) :
    ∀ (l : List Nat) (mem : Mem), (∀ x ∈ l, x < N) → id ∈ l →
      (l.foldl (fun m x => phase1 N x seed first last m) mem) ((first + id*4) + 4*N*k)
        = iterWord^[k+1] ((seed + id) % U32) := by
  intro l
  induction l with
  | nil => intro mem _ h; cases h
  | cons x t ih =>
    intro mem hall hmem
    rw [List.foldl_cons]
    by_cases hjt : id ∈ t
    · exact ih _ (fun y hy => hall y (List.mem_cons_of_mem _ hy)) hjt
    · have hx : x = id := by
        rcases List.mem_cons.mp hmem with h | h
        · exact h.symm
        · exact absurd h hjt
      subst hx
      have hnomiss : ∀ y ∈ t, ∀ k2 : Nat,
          (first + x*4) + 4*N*k ≠ (first + y*4) + 4*N*k2 := by
        intro y hy k2 hc
        have hyN : y < N := hall y (List.mem_cons_of_mem _ hy)
        have hxy := (stride_disjoint N hN first x y k k2 hid hyN hc).1
        exact hjt (hxy ▸ hy)
      rw [run_units_miss N seed first last hN hov hfi _ t _
        (fun y hy => hall y (List.mem_cons_of_mem _ hy)) hnomiss]
      unfold phase1
      have hmod : (first + x*4) % U32 = first + x*4 := Nat.mod_eq_of_lt (by omega)
      rw [hmod]
      exact phase1_go_hit N last hN hov last _ _ mem k (Nat.sub_le _ _) hk

/-- The value found after phase 1 at the `k`-th address of unit `id`'s
stride is the `(k+1)`-st word advancement of that unit's seed. -/
theorem run_phase1_at (N seed first last : Nat) (hN : 1 ≤ N) (hov : last + 4*N ≤ U32)
    (hfi : first + 4*N ≤ U32) (mem0 : Mem) (id k : Nat) (hid : id < N)
    (hk : (first + id*4) + 4*N*k < last) :
    run_phase1 N seed first last mem0 ((first + id*4) + 4*N*k)
      = iterWord^[k+1] ((seed + id) % U32) := by
  unfold run_phase1
  exact run_units_hit N seed first last hN hov hfi id k hid hk (List.range N) mem0
    (fun x hx => List.mem_range.mp hx) (List.mem_range.mpr hid)

/-- A unit's phase-2 loop, in closed form: the 32-bit sum, over its
reversed identity's stride, of the popcounts of expected-xor-read. -/
theorem phase2_eq_sum (N id seed first last : Nat) (mem : Mem) (hN : 1 ≤ N)
    (hov : last + 4*N ≤ U32) (hfi : first + 4*N ≤ U32) :
    phase2 N id seed first last mem =
      ((Finset.range (strideCount N last (first + (N - id - 1)*4))).sum
        (fun k => popcount ((iterWord^[k+1] ((seed + (N - id - 1)) % U32)) ^^^
          mem ((first + (N - id - 1)*4) + 4*N*k)))) % U32 := by
  unfold phase2
  have hmod : (first + (N - id - 1)*4) % U32 = first + (N - id - 1)*4 :=
    Nat.mod_eq_of_lt (by omega)
  rw [hmod]
  rw [phase2_go_sum N last mem hN hov last _ _ 0 (Nat.sub_le _ _)
    (by decide : (0:Nat) < U32)]
  rw [Nat.zero_add]

/-- If memory holds, at every address of the reversed identity's stride,
exactly the value that unit re-derives, the phase-2 counter is 0. -/
theorem phase2_zero_of_match (N id seed first last : Nat) (mem : Mem) (hN : 1 ≤ N)
    (hov : last + 4*N ≤ U32) (hfi : first + 4*N ≤ U32)
    (hmatch : ∀ k : Nat, (first + (N - id - 1)*4) + 4*N*k < last →
      mem ((first + (N - id - 1)*4) + 4*N*k)
        = iterWord^[k+1] ((seed + (N - id - 1)) % U32)) :
    phase2 N id seed first last mem = 0 := by
  rw [phase2_eq_sum N id seed first last mem hN hov hfi]
  rw [Finset.sum_eq_zero]
  · exact Nat.zero_mod _
  · intro k hk
    have hlt : (first + (N - id - 1)*4) + 4*N*k < last :=
      (lt_strideCount_iff N last _ k hN).mp (Finset.mem_range.mp hk)
    rw [hmatch k hlt, Nat.xor_self, popcount_zero]

/-- On an uncorrupted memory every unit's phase-2 counter is 0. -/
theorem phase2_uncorrupted_zero (N seed first last : Nat) (mem0 : Mem) (id : Nat)
    (hN : 1 ≤ N) (hov : last + 4*N ≤ U32) (hfi : first + 4*N ≤ U32) :
    phase2 N id seed first last (run_phase1 N seed first last mem0) = 0 := by
  apply phase2_zero_of_match N id seed first last _ hN hov hfi
  intro k hlt
  exact run_phase1_at N seed first last hN hov hfi mem0 (N - id - 1) k (by omega) hlt

/-! ### Claims C5 and C6 -/

/-- Claim C5: in phase 1 the unit with identity `id` starts its generator
at `base_seed + id` and visits `first + id*4, first + (id+N)*4, ...`
strictly below `last`; at the `k`-th such address it has advanced the
generator `k+1` words and stores that advanced value there; every other
address is left untouched. -/
theorem c5_phase1_unit_writes (N id seed first last : Nat) (mem : Mem)
    (hN : 1 ≤ N) (hid : id < N) (hov : last + 4*N ≤ U32) (hfi : first + 4*N ≤ U32) :
    (∀ k : Nat, (first + id*4) + 4*N*k < last →
      phase1 N id seed first last mem ((first + id*4) + 4*N*k)
        = iterWord^[k+1] ((seed + id) % U32)) ∧
    (∀ a : Nat, (∀ k : Nat, a ≠ (first + id*4) + 4*N*k) →
      phase1 N id seed first last mem a = mem a) := by
  have hmod : (first + id*4) % U32 = first + id*4 := Nat.mod_eq_of_lt (by omega)
  constructor
  · intro k hk
    unfold phase1
    rw [hmod]
    exact phase1_go_hit N last hN hov last _ _ mem k (Nat.sub_le _ _) hk
  · intro a ha
    unfold phase1
    rw [hmod]
    exact phase1_go_miss N last hN hov last _ _ mem a (Nat.sub_le _ _) ha

/-- Witness for C5 at a concrete configuration. -/
theorem c5_phase1_unit_writes_witness :
    phase1 1 0 0 0 4 (fun _ => 0) ((0 + 0*4) + 4*1*0) = iterWord^[0+1] ((0 + 0) % U32) :=
  (c5_phase1_unit_writes 1 0 0 0 4 (fun _ => 0)
    (by decide) (by decide) (by decide) (by decide)).1 0 (by decide)

/-- Claim C6: in phase 2 the unit with identity `id` computes
`rid = N - id - 1`, reseeds with `base_seed + rid`, and traverses exactly
the address/advancement sequence of unit `rid`'s phase 1, accumulating at
the `k`-th address the popcount of the xor of the re-derived value
(`k+1` word advancements of `base_seed + rid`) with the value read there. -/
theorem c6_phase2_role_reversal (N id seed first last : Nat) (mem : Mem)
    (hN : 1 ≤ N) (hov : last + 4*N ≤ U32) (hfi : first + 4*N ≤ U32) :
    phase2 N id seed first last mem =
      ((Finset.range (strideCount N last (first + (N - id - 1)*4))).sum
        (fun k => popcount ((iterWord^[k+1] ((seed + (N - id - 1)) % U32)) ^^^
          mem ((first + (N - id - 1)*4) + 4*N*k)))) % U32 :=
  phase2_eq_sum N id seed first last mem hN hov hfi

/-- Witness for C6 at a concrete configuration. -/
theorem c6_phase2_role_reversal_witness :
    phase2 1 0 0 0 4 (fun _ => 0) =
      ((Finset.range (strideCount 1 4 (0 + (1 - 0 - 1)*4))).sum
        (fun k => popcount ((iterWord^[k+1] ((0 + (1 - 0 - 1)) % U32)) ^^^
          (fun _ => 0 : Mem) ((0 + (1 - 0 - 1)*4) + 4*1*k)))) % U32 :=
  c6_phase2_role_reversal 1 0 0 0 4 (fun _ => 0) (by decide) (by decide) (by decide)

/-! ### Claims C1, C4, C7, C8 -/

/-- Claim C1: with no corruption between the phases, the value each unit
re-derives in phase 2 (seed `base_seed + rid`, same advancement count)
matches what unit `rid` wrote in phase 1 at every address of the fixed
region: every unit's phase-2 mismatch counter is 0, and the final
accumulator of a whole run is 0. -/
theorem c1_uncorrupted_roundtrip_zero (seed : Nat) (mem0 : Mem) :
    (∀ id, id < NB_CORES →
      phase2 NB_CORES id seed ADDR_FIRST ADDR_LAST
        (run_phase1 NB_CORES seed ADDR_FIRST ADDR_LAST mem0) = 0) ∧
    run_self_test NB_CORES seed ADDR_FIRST ADDR_LAST (fun m => m) mem0 = 0 := by
  have hN : 1 ≤ NB_CORES := by decide
  have hov : ADDR_LAST + 4*NB_CORES ≤ U32 := by decide
  have hfi : ADDR_FIRST + 4*NB_CORES ≤ U32 := by decide
  constructor
  · intro id _
    exact phase2_uncorrupted_zero NB_CORES seed ADDR_FIRST ADDR_LAST mem0 id hN hov hfi
  · show glob_errors NB_CORES seed ADDR_FIRST ADDR_LAST
      (run_phase1 NB_CORES seed ADDR_FIRST ADDR_LAST mem0) = 0
    unfold glob_errors
    exact Finset.sum_eq_zero (fun id _ =>
      phase2_uncorrupted_zero NB_CORES seed ADDR_FIRST ADDR_LAST mem0 id hN hov hfi)

/-- Witness for C1 at the default seed on zeroed memory. -/
theorem c1_uncorrupted_roundtrip_zero_witness :
    phase2 NB_CORES 0 DEFAULT_SEED ADDR_FIRST ADDR_LAST
      (run_phase1 NB_CORES DEFAULT_SEED ADDR_FIRST ADDR_LAST (fun _ => 0)) = 0 ∧
    run_self_test NB_CORES DEFAULT_SEED ADDR_FIRST ADDR_LAST (fun m => m)
      (fun _ => 0) = 0 :=
  ⟨(c1_uncorrupted_roundtrip_zero DEFAULT_SEED (fun _ => 0)).1 0 (by decide),
   (c1_uncorrupted_roundtrip_zero DEFAULT_SEED (fun _ => 0)).2⟩

/-- Claim C4: for `N = 8` units and a region `[first, first + 4*W)` with
`8 ∣ W`, the union over the identities of the strided address sequences is
exactly the set of word addresses of the region, and the per-unit
sequences are pairwise disjoint. -/
theorem c4_stride_partition (first W a : Nat) (hdiv : 8 ∣ W)
    (hov : (first + 4*W) + 4*8 ≤ U32) :
    ((∃ id, id < 8 ∧ a ∈ addr_seq 8 id first (first + 4*W)) ↔
      (∃ j, j < W ∧ a = first + 4*j)) ∧
    (∀ id1 id2, id1 < 8 → id2 < 8 →
      a ∈ addr_seq 8 id1 first (first + 4*W) →
      a ∈ addr_seq 8 id2 first (first + 4*W) → id1 = id2) := by
  have h8 : (1:Nat) ≤ 8 := by decide
  have hfi : first + 4*8 ≤ U32 := by omega
  constructor
  · constructor
    · rintro ⟨id, hid, hmem⟩
      obtain ⟨k, hk, hlt⟩ := (addr_seq_mem 8 id first _ h8 hid hov hfi a).mp hmem
      exact ⟨id + 8*k, by omega, by omega⟩
    · rintro ⟨j, hjW, rfl⟩
      refine ⟨j % 8, by omega, ?_⟩
      rw [addr_seq_mem 8 (j % 8) first _ h8 (by omega) hov hfi]
      exact ⟨j / 8, by omega, by omega⟩
  · intro id1 id2 h1 h2 hm1 hm2
    obtain ⟨k1, hk1, _⟩ := (addr_seq_mem 8 id1 first _ h8 h1 hov hfi a).mp hm1
    obtain ⟨k2, hk2, _⟩ := (addr_seq_mem 8 id2 first _ h8 h2 hov hfi a).mp hm2
    omega

/-- Witness for C4 on a tiny region. -/
theorem c4_stride_partition_witness :
    (∃ id, id < 8 ∧ (4:Nat) ∈ addr_seq 8 id 0 (0 + 4*8)) ↔
      (∃ j, j < 8 ∧ (4:Nat) = 0 + 4*j) :=
  (c4_stride_partition 0 8 4 (by decide) (by decide)).1

/-- Claim C7: flipping exactly the bits of `δ` at one in-region word
address between phase 1 and phase 2 (and corrupting nothing else) makes
the final accumulator exactly `popcount δ` — no more, no less; `δ = 0`
(no corruption) gives 0 and `δ = 1` (bit 0 of one word flipped) gives 1. -/
theorem c7_corruption_counted (N seed first last j δ : Nat) (mem0 : Mem)
    (hN : 1 ≤ N) (hov : last + 4*N ≤ U32) (hfi : first + 4*N ≤ U32)
    (hδ : δ < U32) (hj : first + 4*j < last) :
    run_self_test N seed first last
      (fun m => Function.update m (first + 4*j) (m (first + 4*j) ^^^ δ)) mem0
      = popcount δ := by
  obtain ⟨q, r, hrN, rfl⟩ : ∃ q r, r < N ∧ j = N*q + r :=
    ⟨j / N, j % N, Nat.mod_lt _ (by omega), (Nat.div_add_mod j N).symm⟩
  have ha0eq : first + 4*(N*q + r) = (first + r*4) + 4*N*q := by ring
  rw [ha0eq] at hj
  show glob_errors N seed first last
      (Function.update (run_phase1 N seed first last mem0) (first + 4*(N*q + r))
        ((run_phase1 N seed first last mem0) (first + 4*(N*q + r)) ^^^ δ)) = popcount δ
  rw [ha0eq]
  set mem1 := run_phase1 N seed first last mem0 with hmem1
  set mem2 := Function.update mem1 ((first + r*4) + 4*N*q)
    (mem1 ((first + r*4) + 4*N*q) ^^^ δ) with hmem2
  have hval : mem1 ((first + r*4) + 4*N*q) = iterWord^[q+1] ((seed + r) % U32) :=
    run_phase1_at N seed first last hN hov hfi mem0 r q hrN hj
  have hothers : ∀ i ∈ Finset.range N, i ≠ N - r - 1 →
      phase2 N i seed first last mem2 = 0 := by
    intro i hiN hine
    have hiN' : i < N := Finset.mem_range.mp hiN
    apply phase2_zero_of_match N i seed first last mem2 hN hov hfi
    intro k hlt
    have hridN : N - i - 1 < N := by omega
    have hne : (first + (N - i - 1)*4) + 4*N*k ≠ (first + r*4) + 4*N*q := by
      intro hc
      have h1 := (stride_disjoint N hN first (N - i - 1) r k q hridN hrN hc).1
      omega
    rw [hmem2, Function.update_noteq hne]
    exact run_phase1_at N seed first last hN hov hfi mem0 (N - i - 1) k hridN hlt
  unfold glob_errors
  rw [Finset.sum_eq_single_of_mem (N - r - 1)
    (Finset.mem_range.mpr (by omega)) hothers]
  rw [phase2_eq_sum N (N - r - 1) seed first last mem2 hN hov hfi]
  have hrid : N - (N - r - 1) - 1 = r := by omega
  rw [hrid]
  have hqc : q ∈ Finset.range (strideCount N last (first + r*4)) := by
    rw [Finset.mem_range, lt_strideCount_iff N last _ q hN]
    exact hj
  have hsum : (Finset.range (strideCount N last (first + r*4))).sum
      (fun k => popcount ((iterWord^[k+1] ((seed + r) % U32)) ^^^
        mem2 ((first + r*4) + 4*N*k))) = popcount δ := by
    refine Eq.trans (Finset.sum_eq_single_of_mem q hqc ?_) ?_
    · intro k hk hkq
      have hlt : (first + r*4) + 4*N*k < last :=
        (lt_strideCount_iff N last _ k hN).mp (Finset.mem_range.mp hk)
      have hne : (first + r*4) + 4*N*k ≠ (first + r*4) + 4*N*q := by
        intro hc
        exact hkq (stride_disjoint N hN first r r k q hrN hrN hc).2
      rw [hmem2, Function.update_noteq hne, hmem1,
        run_phase1_at N seed first last hN hov hfi mem0 r k hrN hlt]
      rw [Nat.xor_self, popcount_zero]
    · rw [hmem2, Function.update_same, hval, xor_cancel_left]
  rw [hsum]
  exact Nat.mod_eq_of_lt (Nat.lt_of_le_of_lt (popcount_le_self δ) hδ)

/-- Witness for C7: the spec's scenario — seed `0xdeadbeef`, a region of
64 words, one unit, bit 0 of the first word flipped after phase 1. -/
theorem c7_corruption_counted_witness :
    run_self_test 1 DEFAULT_SEED ADDR_FIRST (ADDR_FIRST + 256)
      (fun m => Function.update m (ADDR_FIRST + 4*0) (m (ADDR_FIRST + 4*0) ^^^ 1))
      (fun _ => 0) = popcount 1 :=
  c7_corruption_counted 1 DEFAULT_SEED ADDR_FIRST (ADDR_FIRST + 256) 0 1 (fun _ => 0)
    (by decide) (by decide) (by decide) (by decide) (by decide)

/-- Claim C8 (behaviour of the code at an invalid configuration): the task
launcher performs no configuration validation, so with `unit_count = 0`
the per-unit address loop has stride `4*0 = 0` and never advances — every
iteration revisits the start address and the loop never terminates. -/
theorem c8_zero_units_loop_never_advances (fuel : Nat) :
    addr_seq_go 0 ADDR_LAST fuel ADDR_FIRST = List.replicate fuel ADDR_FIRST := by
  induction fuel with
  | zero => rfl
  | succ n ih =>
    simp only [addr_seq_go, if_pos (by decide : ADDR_FIRST < ADDR_LAST)]
    have hmod : (ADDR_FIRST + 4*0) % U32 = ADDR_FIRST := by decide
    rw [hmod, ih, List.replicate_succ]

end Lfsr32
